import Mathlib

/-!
# Verification of the `ai-code-tools` sandbox core

This file is a shallow embedding, in Lean 4, of the core of the
`christianalfoni/ai-code-tools` repository:

* `src/validate_code.ts` — `validateCode`: parses untrusted JavaScript
  (via acorn) and walks the syntax tree enforcing a denylist policy;
* `src/execute_tools.ts` — `executeTools`: validates, wraps the tool
  capabilities in forwarding functions, compiles the snippet with
  `new Function("tools", ...)`, runs it, and renders the outcome;
* `src/discover_tools.ts` — `discoverToolsInMemory`: best-effort regex
  search over the tool catalog.

External libraries are represented by their observable interfaces:

* the acorn parser is external, so a source string is represented by its
  parse outcome `Except String (List Node)` (the statements of the
  snippet body, or a parse-error message);
* `new RegExp` / `z.toJSONSchema` in discovery are abstract function
  parameters that may fail (`Except`), exactly where the JS may throw.

The dynamic-evaluation step `new Function("tools", body)` is embedded by
a small interpreter.  Per ECMA-262, a function created by the `Function`
constructor is instantiated in the *global* scope: its scope chain
consists of its own parameters/locals and the realm's global bindings —
and nothing from the scope where `Function` was called.  The interpreter
therefore resolves identifiers in the local environment first, then in
an explicit table of host global bindings, and reports a
`ReferenceError` otherwise.  Host module bindings are unreachable, but
host *globals* are reachable — which is exactly why
`FORBIDDEN_IDENTIFIERS` has to denylist `process`, `global`, etc.
-/

/-- Syntax-tree nodes of the JavaScript fragment that the validator
walks.  Constructors correspond to the acorn (ESTree) node types the
source code inspects (`Identifier`, `MemberExpression`,
`WhileStatement`, `DoWhileStatement`, the import/export declarations)
plus the surrounding expression/statement forms needed to build real
programs.  As in ESTree, declared names, member-property names and
object-literal keys are themselves `Identifier` nodes (`ident`), while
string data lives only in `strLit` nodes. -/
inductive Node where
  | program (body : List Node)
  | importDecl
  | exportNamedDecl
  | exportDefaultDecl
  | exportAllDecl
  | exprStmt (e : Node)
  | varDecl (kind : String) (id : Node) (init : Option Node)
  | ret (e : Option Node)
  | block (body : List Node)
  | ifStmt (test : Node) (thenB : Node) (elseB : Option Node)
  | whileStmt (test : Node) (body : Node)
  | doWhileStmt (body : Node) (test : Node)
  | forStmt (init : Option Node) (test : Option Node) (update : Option Node) (body : Node)
  | forOfStmt (kind : String) (id : Node) (iter : Node) (body : Node)
  | ident (name : String)
  | numLit (n : Int)
  | strLit (s : String)
  | boolLit (b : Bool)
  | nullLit
  | arrLit (elems : List Node)
  | objLit (props : List Node)
  | objProp (key : Node) (value : Node)
  | member (obj : Node) (prop : Node)
  | call (callee : Node) (args : List Node)
  | assign (target : Node) (e : Node)
  | awaitE (e : Node)
  | binop (op : String) (l : Node) (r : Node)
  | asyncArrow (params : List Node) (body : Node)

/-- `ALLOWED_GLOBALS` from `validate_code.ts` (lines 9–33).  The check
that consumes it (lines 129–141 of the source) has an empty body and is
deliberately not enforced; the set is carried for documentation. -/
def ALLOWED_GLOBALS : List String :=
  ["Array", "Boolean", "Date", "Error", "JSON", "Math", "Number",
   "Object", "String", "RegExp", "Map", "Set", "Promise", "parseInt",
   "parseFloat", "isNaN", "isFinite", "undefined", "NaN", "Infinity",
   "tools"]

/-- `FORBIDDEN_IDENTIFIERS` from `validate_code.ts` (lines 36–51). -/
def FORBIDDEN_IDENTIFIERS : List String :=
  ["require", "import", "eval", "Function", "process", "global",
   "globalThis", "__dirname", "__filename", "module", "exports",
   "setTimeout", "setInterval", "setImmediate"]

/-- The violation messages, as literal strings of `validate_code.ts`. -/
def whileMsg : String :=
  "while loops are not allowed (potential infinite loop). Use for loops or array methods instead."

def doWhileMsg : String :=
  "do-while loops are not allowed (potential infinite loop). Use for loops or array methods instead."

def nestedCtorMsg : String :=
  "Nested constructor property access is not allowed (potential Function constructor escape)"

def importExportMsg (ty : String) : String :=
  "Import/export statements are not allowed: " ++ ty

def forbiddenIdentMsg (name : String) : String :=
  "Forbidden identifier: " ++ name

def forbiddenObjectMsg (name : String) : String :=
  "Access to forbidden object: " ++ name

/-- The violations that the walk in `validateCode` records for one node,
in the order of the `if` statements of the source (lines 71–127): the
import/export check, the forbidden-identifier check, the forbidden
member-access-root check, the nested-`constructor` check, and the
`while` / `do-while` checks.  A node can trigger several checks. -/
def nodeErrs : Node → List String
  | .importDecl => [importExportMsg "ImportDeclaration"]
  | .exportNamedDecl => [importExportMsg "ExportNamedDeclaration"]
  | .exportDefaultDecl => [importExportMsg "ExportDefaultDeclaration"]
  | .exportAllDecl => [importExportMsg "ExportAllDeclaration"]
  | .ident name =>
      if name ∈ FORBIDDEN_IDENTIFIERS then [forbiddenIdentMsg name] else []
  | .member obj prop =>
      (match obj with
       | .ident n =>
           if n ∈ FORBIDDEN_IDENTIFIERS then [forbiddenObjectMsg n] else []
       | _ => []) ++
      (match prop, obj with
       | .ident "constructor", .member _ (.ident "constructor") => [nestedCtorMsg]
       | _, _ => [])
  | .whileStmt _ _ => [whileMsg]
  | .doWhileStmt _ _ => [doWhileMsg]
  | _ => []

/-- The child nodes of a node, in the field order in which the source's
generic `for (const key in node)` loop reaches them (acorn stores the
ESTree fields in construction order; non-node fields such as `type`,
`start`, `end`, `computed` and the skipped `parent` back-pointer do not
contribute). -/
def Node.children : Node → List Node
  | .program body => body
  | .importDecl | .exportNamedDecl | .exportDefaultDecl | .exportAllDecl => []
  | .exprStmt e => [e]
  | .varDecl _ id init => id :: init.toList
  | .ret e => e.toList
  | .block body => body
  | .ifStmt t th el => t :: th :: el.toList
  | .whileStmt t b => [t, b]
  | .doWhileStmt b t => [b, t]
  | .forStmt i t u b => i.toList ++ t.toList ++ u.toList ++ [b]
  | .forOfStmt _ id iter b => [id, iter, b]
  | .ident _ | .numLit _ | .strLit _ | .boolLit _ | .nullLit => []
  | .arrLit elems => elems
  | .objLit props => props
  | .objProp k v => [k, v]
  | .member o p => [o, p]
  | .call c args => c :: args
  | .assign t e => [t, e]
  | .awaitE e => [e]
  | .binop _ l r => [l, r]
  | .asyncArrow ps b => ps ++ [b]

mutual
/-- The pre-order tree walk of `validateCode` (lines 68–159): record the
current node's violations, then recurse into every child node, in field
order.  (`walk_children_eq` below states this in terms of
`Node.children`.) -/
def walk : Node → List String
  | n@(.program body) => nodeErrs n ++ walkList body
  | n@.importDecl => nodeErrs n
  | n@.exportNamedDecl => nodeErrs n
  | n@.exportDefaultDecl => nodeErrs n
  | n@.exportAllDecl => nodeErrs n
  | n@(.exprStmt e) => nodeErrs n ++ walk e
  | n@(.varDecl _ id init) => nodeErrs n ++ walk id ++ walkOpt init
  | n@(.ret e) => nodeErrs n ++ walkOpt e
  | n@(.block body) => nodeErrs n ++ walkList body
  | n@(.ifStmt t th el) => nodeErrs n ++ walk t ++ walk th ++ walkOpt el
  | n@(.whileStmt t b) => nodeErrs n ++ walk t ++ walk b
  | n@(.doWhileStmt b t) => nodeErrs n ++ walk b ++ walk t
  | n@(.forStmt i t u b) => nodeErrs n ++ walkOpt i ++ walkOpt t ++ walkOpt u ++ walk b
  | n@(.forOfStmt _ id iter b) => nodeErrs n ++ walk id ++ walk iter ++ walk b
  | n@(.ident _) => nodeErrs n
  | n@(.numLit _) => nodeErrs n
  | n@(.strLit _) => nodeErrs n
  | n@(.boolLit _) => nodeErrs n
  | n@.nullLit => nodeErrs n
  | n@(.arrLit elems) => nodeErrs n ++ walkList elems
  | n@(.objLit props) => nodeErrs n ++ walkList props
  | n@(.objProp k v) => nodeErrs n ++ walk k ++ walk v
  | n@(.member o p) => nodeErrs n ++ walk o ++ walk p
  | n@(.call c args) => nodeErrs n ++ walk c ++ walkList args
  | n@(.assign t e) => nodeErrs n ++ walk t ++ walk e
  | n@(.awaitE e) => nodeErrs n ++ walk e
  | n@(.binop _ l r) => nodeErrs n ++ walk l ++ walk r
  | n@(.asyncArrow ps b) => nodeErrs n ++ walkList ps ++ walk b

/-- Walking an optional child. -/
def walkOpt : Option Node → List String
  | none => []
  | some n => walk n

/-- Walking a list of children in order. -/
def walkList : List Node → List String
  | [] => []
  | n :: rest => walk n ++ walkList rest
end

/-- `walkList` distributes over list append. -/
theorem walkList_append (a b : List Node) :
    walkList (a ++ b) = walkList a ++ walkList b := by
  induction a with
  | nil => simp [walkList]
  | cons n rest ih => simp [walkList, ih]

/-- Walking an optional child is walking its `toList`. -/
theorem walkList_toList (o : Option Node) : walkList o.toList = walkOpt o := by
  cases o <;> simp [walkList, walkOpt]

/-- The walk visits exactly: the node's own violations, then the walk of
its children in field order — the generic
`for (const key in node)` recursion of the source. -/
theorem walk_children_eq (n : Node) :
    walk n = nodeErrs n ++ walkList n.children := by
  cases n <;>
    simp [walk, walkList, Node.children, walkList_append, walkList_toList]

/-- The result record of `validateCode` (`ValidationResult`, lines 3–6). -/
structure ValidationResult where
  isValid : Bool
  errors : List String
deriving DecidableEq, Repr

/-- Line 59 of `validate_code.ts`: the snippet is parsed wrapped as
`(async () => { ...code... })()`, so the tree the walk visits is the
whole wrapped program. -/
def wrapAst (body : List Node) : Node :=
  .program [.exprStmt (.call (.asyncArrow [] (.block body)) [])]

/-- `validateCode` (lines 53–173).  The acorn parser is external to the
repository, so the source string is represented by its parse outcome:
`.ok body` are the statements of the snippet, `.error msg` is a parse
failure, which the `catch` block (lines 167–172) turns into the
`Failed to parse code: …` violation. -/
def validateCode (parsed : Except String (List Node)) : ValidationResult :=
  match parsed with
  | .error msg => ⟨false, ["Failed to parse code: " ++ msg]⟩
  | .ok body =>
      let errors := walk (wrapAst body)
      ⟨errors.isEmpty, errors⟩

/-- `m` is `n` itself or a descendant of `n` in the syntax tree: the set
of nodes the pre-order walk of `validateCode` visits starting at `n`. -/
inductive SubNode : Node → Node → Prop
  | refl (n : Node) : SubNode n n
  | step {m c n : Node} : c ∈ n.children → SubNode m c → SubNode m n

mutual
/-- A decidable occurs-check: does a node satisfying `p` occur in the
tree rooted at `n`?  Mirrors the recursion of `walk`. -/
def containsNode (p : Node → Bool) : Node → Bool
  | n@(.program body) => p n || containsList p body
  | n@.importDecl => p n
  | n@.exportNamedDecl => p n
  | n@.exportDefaultDecl => p n
  | n@.exportAllDecl => p n
  | n@(.exprStmt e) => p n || containsNode p e
  | n@(.varDecl _ id init) => p n || containsNode p id || containsOpt p init
  | n@(.ret e) => p n || containsOpt p e
  | n@(.block body) => p n || containsList p body
  | n@(.ifStmt t th el) => p n || containsNode p t || containsNode p th || containsOpt p el
  | n@(.whileStmt t b) => p n || containsNode p t || containsNode p b
  | n@(.doWhileStmt b t) => p n || containsNode p b || containsNode p t
  | n@(.forStmt i t u b) =>
      p n || containsOpt p i || containsOpt p t || containsOpt p u || containsNode p b
  | n@(.forOfStmt _ id iter b) =>
      p n || containsNode p id || containsNode p iter || containsNode p b
  | n@(.ident _) => p n
  | n@(.numLit _) => p n
  | n@(.strLit _) => p n
  | n@(.boolLit _) => p n
  | n@.nullLit => p n
  | n@(.arrLit elems) => p n || containsList p elems
  | n@(.objLit props) => p n || containsList p props
  | n@(.objProp k v) => p n || containsNode p k || containsNode p v
  | n@(.member o pr) => p n || containsNode p o || containsNode p pr
  | n@(.call c args) => p n || containsNode p c || containsList p args
  | n@(.assign t e) => p n || containsNode p t || containsNode p e
  | n@(.awaitE e) => p n || containsNode p e
  | n@(.binop _ l r) => p n || containsNode p l || containsNode p r
  | n@(.asyncArrow ps b) => p n || containsList p ps || containsNode p b

def containsOpt (p : Node → Bool) : Option Node → Bool
  | none => false
  | some n => containsNode p n

def containsList (p : Node → Bool) : List Node → Bool
  | [] => false
  | n :: rest => containsNode p n || containsList p rest
end

theorem containsList_append (p : Node → Bool) (a b : List Node) :
    containsList p (a ++ b) = (containsList p a || containsList p b) := by
  induction a with
  | nil => simp [containsList]
  | cons n rest ih => simp [containsList, ih, Bool.or_assoc]

theorem containsList_toList (p : Node → Bool) (o : Option Node) :
    containsList p o.toList = containsOpt p o := by
  cases o <;> simp [containsList, containsOpt]

theorem containsNode_children_eq (p : Node → Bool) (n : Node) :
    containsNode p n = (p n || containsList p n.children) := by
  cases n <;>
    simp [containsNode, containsList, Node.children, containsList_append,
      containsList_toList, Bool.or_assoc]

/-- Every child is smaller than its parent. -/
theorem sizeOf_lt_of_mem_children {c n : Node} (h : c ∈ n.children) :
    sizeOf c < sizeOf n := by
  cases n <;>
    simp only [Node.children, List.mem_append, List.mem_cons, List.mem_singleton,
      List.not_mem_nil, or_false, false_or, Option.mem_toList, Option.mem_def] at h <;>
    (try casesm* _ ∨ _) <;>
    first
      | (have hlt := List.sizeOf_lt_of_mem h; simp at hlt ⊢; omega)
      | (rename_i hm; have hlt := List.sizeOf_lt_of_mem hm; simp at hlt ⊢; omega)
      | ((try simp_all); all_goals omega)

/-- Strong induction on the size of a node. -/
theorem node_size_induction (P : Node → Prop)
    (h : ∀ n, (∀ c : Node, sizeOf c < sizeOf n → P c) → P n) :
    ∀ n, P n := by
  have key : ∀ k : Nat, ∀ n : Node, sizeOf n ≤ k → P n := by
    intro k
    induction k with
    | zero =>
        intro n hn
        exact h n (fun c hc => absurd (Nat.lt_of_lt_of_le hc hn) (Nat.not_lt_zero _))
    | succ k ih =>
        intro n hn
        exact h n (fun c hc => ih c (by omega))
  exact fun n => key (sizeOf n) n (Nat.le_refl _)

theorem mem_walkList_elim {e : String} :
    ∀ l : List Node, e ∈ walkList l → ∃ c ∈ l, e ∈ walk c := by
  intro l hm
  induction l with
  | nil => simp [walkList] at hm
  | cons n rest ih =>
      rw [walkList, List.mem_append] at hm
      rcases hm with hm | hm
      · exact ⟨n, List.mem_cons_self .., hm⟩
      · obtain ⟨c, hc, he⟩ := ih hm
        exact ⟨c, List.mem_cons_of_mem _ hc, he⟩

theorem walk_subset_walkList {c : Node} {l : List Node} (hc : c ∈ l) :
    ∀ e ∈ walk c, e ∈ walkList l := by
  intro e he
  induction l with
  | nil => simp at hc
  | cons n rest ih =>
      rw [walkList, List.mem_append]
      rcases List.mem_cons.mp hc with h | h
      · subst h; exact Or.inl he
      · exact Or.inr (ih h)

/-- Soundness of the walk: the violations of every visited node appear
in the walk's result. -/
theorem nodeErrs_subset_walk {m n : Node} (h : SubNode m n) :
    ∀ e ∈ nodeErrs m, e ∈ walk n := by
  induction h with
  | refl =>
      intro e he
      rw [walk_children_eq, List.mem_append]
      exact Or.inl he
  | step hc _ ih =>
      intro e he
      rw [walk_children_eq, List.mem_append]
      exact Or.inr (walk_subset_walkList hc e (ih e he))

/-- Completeness of the walk: every reported violation is the violation
of some visited node. -/
theorem mem_walk_elim {e : String} :
    ∀ n : Node, e ∈ walk n → ∃ m, SubNode m n ∧ e ∈ nodeErrs m := by
  refine node_size_induction _ ?_
  intro n ih he
  rw [walk_children_eq, List.mem_append] at he
  rcases he with he | he
  · exact ⟨n, SubNode.refl n, he⟩
  · obtain ⟨c, hc, hec⟩ := mem_walkList_elim _ he
    obtain ⟨m, hsub, hem⟩ := ih c (sizeOf_lt_of_mem_children hc) hec
    exact ⟨m, SubNode.step hc hsub, hem⟩

theorem containsList_elim {p : Node → Bool} :
    ∀ l : List Node, containsList p l = true → ∃ c ∈ l, containsNode p c = true := by
  intro l hm
  induction l with
  | nil => simp [containsList] at hm
  | cons n rest ih =>
      rw [containsList, Bool.or_eq_true] at hm
      rcases hm with hm | hm
      · exact ⟨n, List.mem_cons_self .., hm⟩
      · obtain ⟨c, hc, he⟩ := ih hm
        exact ⟨c, List.mem_cons_of_mem _ hc, he⟩

theorem containsNode_of_mem {p : Node → Bool} {c : Node} {l : List Node} (hc : c ∈ l)
    (h : containsNode p c = true) : containsList p l = true := by
  induction l with
  | nil => simp at hc
  | cons n rest ih =>
      rw [containsList, Bool.or_eq_true]
      rcases List.mem_cons.mp hc with hh | hh
      · subst hh; exact Or.inl h
      · exact Or.inr (ih hh)

/-- The boolean occurs-check agrees with the `SubNode` relation. -/
theorem containsNode_iff (p : Node → Bool) :
    ∀ n : Node, containsNode p n = true ↔ ∃ m, SubNode m n ∧ p m = true := by
  refine node_size_induction _ ?_
  intro n ih
  constructor
  · intro h
    rw [containsNode_children_eq, Bool.or_eq_true] at h
    rcases h with h | h
    · exact ⟨n, SubNode.refl n, h⟩
    · obtain ⟨c, hc, hcc⟩ := containsList_elim _ h
      obtain ⟨m, hsub, hpm⟩ := (ih c (sizeOf_lt_of_mem_children hc)).mp hcc
      exact ⟨m, SubNode.step hc hsub, hpm⟩
  · rintro ⟨m, hsub, hpm⟩
    rw [containsNode_children_eq, Bool.or_eq_true]
    cases hsub with
    | refl => exact Or.inl hpm
    | step hc hsub' =>
        refine Or.inr (containsNode_of_mem hc ?_)
        exact (ih _ (sizeOf_lt_of_mem_children hc)).mpr ⟨m, hsub', hpm⟩

/-! ### String helper lemmas

The violation messages fall into six families, each starting with a
distinct character (`I`, `F`, `A`, `N`, `w`, `d`), which lets us decide
which node kind produced a given message. -/

theorem stringDataEq {s t : String} (h : s.data = t.data) : s = t := by
  cases s with
  | mk d => cases t with
    | mk e => exact congrArg String.mk h

theorem strAppendCancelLeft {a x y : String} (h : a ++ x = a ++ y) : x = y := by
  have hd := congrArg String.data h
  rw [String.data_append, String.data_append] at hd
  exact stringDataEq (List.append_cancel_left hd)

theorem ne_of_head_ne {s t : String} (h : s.data.head? ≠ t.data.head?) :
    s ≠ t := fun he => h (congrArg (fun z : String => z.data.head?) he)

theorem head_append (a x : String) (ha : a.data ≠ []) :
    (a ++ x).data.head? = a.data.head? := by
  rw [String.data_append]
  rcases List.exists_cons_of_ne_nil ha with ⟨c, t, hc⟩
  rw [hc]
  rfl

theorem head_forbiddenIdentMsg (name : String) :
    (forbiddenIdentMsg name).data.head? = some 'F' := by
  rw [forbiddenIdentMsg, head_append _ _ (by decide)]
  decide

theorem head_forbiddenObjectMsg (name : String) :
    (forbiddenObjectMsg name).data.head? = some 'A' := by
  rw [forbiddenObjectMsg, head_append _ _ (by decide)]
  decide

theorem head_importExportMsg (ty : String) :
    (importExportMsg ty).data.head? = some 'I' := by
  rw [importExportMsg, head_append _ _ (by decide)]
  decide

theorem forbiddenIdentMsg_injEq {x name : String}
    (h : forbiddenIdentMsg x = forbiddenIdentMsg name) : x = name := by
  rw [forbiddenIdentMsg, forbiddenIdentMsg] at h
  exact strAppendCancelLeft h

/-! ### Which node kinds produce which messages -/

/-- Only an `Identifier` node named `name` (with `name` in the denylist)
produces the message `Forbidden identifier: name`. -/
theorem forbiddenIdentMsg_nodeErrs {name : String} {m : Node}
    (h : forbiddenIdentMsg name ∈ nodeErrs m) :
    m = .ident name ∧ name ∈ FORBIDDEN_IDENTIFIERS := by
  cases m <;> simp only [nodeErrs, List.mem_singleton, List.not_mem_nil] at h
  case importDecl =>
    exact absurd h (ne_of_head_ne (by rw [head_forbiddenIdentMsg, head_importExportMsg]; decide))
  case exportNamedDecl =>
    exact absurd h (ne_of_head_ne (by rw [head_forbiddenIdentMsg, head_importExportMsg]; decide))
  case exportDefaultDecl =>
    exact absurd h (ne_of_head_ne (by rw [head_forbiddenIdentMsg, head_importExportMsg]; decide))
  case exportAllDecl =>
    exact absurd h (ne_of_head_ne (by rw [head_forbiddenIdentMsg, head_importExportMsg]; decide))
  case ident x =>
    split at h
    · next hx =>
        rw [List.mem_singleton] at h
        have := forbiddenIdentMsg_injEq h.symm
        subst this
        exact ⟨rfl, hx⟩
    · simp at h
  case member obj prop =>
    rw [List.mem_append] at h
    rcases h with h | h
    · split at h
      · next n _ =>
          split at h
          · rw [List.mem_singleton] at h
            exact absurd h (ne_of_head_ne (by
              rw [head_forbiddenIdentMsg, head_forbiddenObjectMsg]; decide))
          · simp at h
      · simp at h
    · split at h
      · rw [List.mem_singleton] at h
        exact absurd h (ne_of_head_ne (by rw [head_forbiddenIdentMsg]; decide))
      · simp at h
  case whileStmt t b =>
    exact absurd h (ne_of_head_ne (by rw [head_forbiddenIdentMsg]; decide))
  case doWhileStmt b t =>
    exact absurd h (ne_of_head_ne (by rw [head_forbiddenIdentMsg]; decide))

/-- Only a `WhileStatement` node produces the while-loop message. -/
theorem whileMsg_nodeErrs {m : Node} (h : whileMsg ∈ nodeErrs m) :
    ∃ t b, m = .whileStmt t b := by
  cases m <;> simp only [nodeErrs, List.mem_singleton, List.not_mem_nil] at h
  case importDecl =>
    exact absurd h (ne_of_head_ne (by rw [head_importExportMsg]; decide)).symm
  case exportNamedDecl =>
    exact absurd h (ne_of_head_ne (by rw [head_importExportMsg]; decide)).symm
  case exportDefaultDecl =>
    exact absurd h (ne_of_head_ne (by rw [head_importExportMsg]; decide)).symm
  case exportAllDecl =>
    exact absurd h (ne_of_head_ne (by rw [head_importExportMsg]; decide)).symm
  case ident x =>
    split at h
    · rw [List.mem_singleton] at h
      exact absurd h (ne_of_head_ne (by rw [head_forbiddenIdentMsg]; decide)).symm
    · simp at h
  case member obj prop =>
    rw [List.mem_append] at h
    rcases h with h | h
    · split at h
      · split at h
        · rw [List.mem_singleton] at h
          exact absurd h (ne_of_head_ne (by rw [head_forbiddenObjectMsg]; decide)).symm
        · simp at h
      · simp at h
    · split at h
      · rw [List.mem_singleton] at h
        exact absurd h (by decide)
      · simp at h
  case whileStmt t b => exact ⟨t, b, rfl⟩
  case doWhileStmt b t => exact absurd h (by decide)

/-- Only a `DoWhileStatement` node produces the do-while message. -/
theorem doWhileMsg_nodeErrs {m : Node} (h : doWhileMsg ∈ nodeErrs m) :
    ∃ b t, m = .doWhileStmt b t := by
  cases m <;> simp only [nodeErrs, List.mem_singleton, List.not_mem_nil] at h
  case importDecl =>
    exact absurd h (ne_of_head_ne (by rw [head_importExportMsg]; decide)).symm
  case exportNamedDecl =>
    exact absurd h (ne_of_head_ne (by rw [head_importExportMsg]; decide)).symm
  case exportDefaultDecl =>
    exact absurd h (ne_of_head_ne (by rw [head_importExportMsg]; decide)).symm
  case exportAllDecl =>
    exact absurd h (ne_of_head_ne (by rw [head_importExportMsg]; decide)).symm
  case ident x =>
    split at h
    · rw [List.mem_singleton] at h
      exact absurd h (ne_of_head_ne (by rw [head_forbiddenIdentMsg]; decide)).symm
    · simp at h
  case member obj prop =>
    rw [List.mem_append] at h
    rcases h with h | h
    · split at h
      · split at h
        · rw [List.mem_singleton] at h
          exact absurd h (ne_of_head_ne (by rw [head_forbiddenObjectMsg]; decide)).symm
        · simp at h
      · simp at h
    · split at h
      · rw [List.mem_singleton] at h
        exact absurd h (by decide)
      · simp at h
  case whileStmt t b => exact absurd h (by decide)
  case doWhileStmt b t => exact ⟨b, t, rfl⟩

/-! ### Output strings: `errors.join("\n")` and substring containment -/

/-- `Array.prototype.join("\n")` as used on line 9 of
`execute_tools.ts`. -/
def joinLines : List String → String
  | [] => ""
  | [x] => x
  | x :: rest => x ++ "\n" ++ joinLines rest

/-- `a` occurs as a contiguous substring of `b`
(`String.prototype.includes` / vitest's `toContain`). -/
def Substr (a b : String) : Prop := ∃ p q, b = p ++ a ++ q

theorem Substr.of_eq {a : String} : Substr a a :=
  ⟨"", "", by rw [String.empty_append, String.append_empty]⟩

theorem Substr.in_left {a b : String} (h : Substr a b) (c : String) :
    Substr a (b ++ c) := by
  obtain ⟨p, q, rfl⟩ := h
  exact ⟨p, q ++ c, by rw [String.append_assoc, String.append_assoc]⟩

theorem Substr.in_right {a b : String} (h : Substr a b) (c : String) :
    Substr a (c ++ b) := by
  obtain ⟨p, q, rfl⟩ := h
  exact ⟨c ++ p, q, by rw [String.append_assoc, String.append_assoc,
    String.append_assoc]⟩

/-- Every element of the list is a substring of the joined string. -/
theorem substr_joinLines {x : String} :
    ∀ l : List String, x ∈ l → Substr x (joinLines l) := by
  intro l hx
  induction l with
  | nil => simp at hx
  | cons y rest ih =>
      rcases List.mem_cons.mp hx with h | h
      · subst h
        cases rest with
        | nil => exact Substr.of_eq
        | cons z zs =>
            show Substr x (x ++ "\n" ++ joinLines (z :: zs))
            rw [String.append_assoc]
            exact Substr.of_eq.in_left _
      · cases rest with
        | nil => simp at h
        | cons z zs =>
            show Substr x (y ++ "\n" ++ joinLines (z :: zs))
            rw [String.append_assoc]
            exact ((ih h).in_right _).in_right _

/-! ### Runtime values and the sandboxed evaluator

`executeTools` (execute_tools.ts) runs the validated snippet via
`new Function("tools", "return (async () => {\n<code>\n})();")`.  The
constructed function's scope chain is its parameter `tools`, its own
locals, and the realm's global object — nothing else (ECMA-262,
CreateDynamicFunction).  The interpreter below implements exactly that
name resolution.  `await` on our (pure) capability model is the
identity; promise timing is not modelled. -/

/-- JavaScript runtime values, restricted to the data the sandbox can
build: JSON-like data, the per-call capability wrappers
(`vWrapped name` is the wrapper allocated for capability `name` on
lines 18–26 of execute_tools.ts), and host builtin function objects. -/
inductive Value where
  | vUndefined
  | vNull
  | vBool (b : Bool)
  | vNum (n : Int)
  | vStr (s : String)
  | vArr (elems : List Value)
  | vObj (fields : List (String × Value))
  | vWrapped (name : String)
  | vBuiltin (name : String)

/-- The behaviour of a capability's `execute` function: the host may
fail (reject), which the sandbox observes as a thrown error. -/
abbrev HostFun := List Value → Except String Value

/-- A catalog entry as `executeTools` receives it: the invoke behaviour
together with the source text of its implementation (which may embed
closure-captured secrets).  The wrapper built by `executeTools` must not
let the sandbox observe `executeSrc`. -/
structure Tool where
  execute : HostFun
  executeSrc : String

/-- The source text of the wrapper arrow function allocated on
lines 18–20 of execute_tools.ts.  Reflective stringification of a
wrapper yields this constant text — for every capability. -/
def wrapperSource : String :=
  "async (...args) => \x7b\n        return await tool.execute(...args);\n      \x7d"

/-- First-match association lookup (new bindings are prepended, so this
gives JavaScript shadowing). -/
def lookupAssoc {α : Type} : List (String × α) → String → Option α
  | [], _ => none
  | (n, v) :: rest, k => if n == k then some v else lookupAssoc rest k

mutual
/-- `String(v)` / template-literal coercion for the modelled values.
Stringifying a capability wrapper yields the wrapper's own source text
(`Function.prototype.toString`), never the capability's. -/
def jsToString : Value → String
  | .vUndefined => "undefined"
  | .vNull => "null"
  | .vBool true => "true"
  | .vBool false => "false"
  | .vNum n => toString n
  | .vStr s => s
  | .vArr elems => jsArrItems elems
  | .vObj _ => "[object Object]"
  | .vWrapped _ => wrapperSource
  | .vBuiltin name => "function " ++ name ++ "() { [native code] }"

/-- `Array.prototype.toString`: elements joined with `,`;
`null`/`undefined` elements render as the empty string. -/
def jsArrItems : List Value → String
  | [] => ""
  | [.vUndefined] => ""
  | [.vNull] => ""
  | [v] => jsToString v
  | .vUndefined :: rest => "," ++ jsArrItems rest
  | .vNull :: rest => "," ++ jsArrItems rest
  | v :: rest => jsToString v ++ "," ++ jsArrItems rest
end

/-- JSON string escaping (the common escapes; exotic control characters
are out of the modelled fragment). -/
def jsonEscapeChar (c : Char) : String :=
  if c = '"' then "\\\""
  else if c = '\\' then "\\\\"
  else if c = '\n' then "\\n"
  else if c = '\t' then "\\t"
  else if c = '\r' then "\\r"
  else String.mk [c]

def jsonQuote (s : String) : String :=
  "\"" ++ String.join (s.data.map jsonEscapeChar) ++ "\""

/-- `indent` prefix at nesting level `lvl` for `JSON.stringify(·, null, 2)`. -/
def jsonIndent (lvl : Nat) : String := String.mk (List.replicate (2 * lvl) ' ')

def joinCommaNl : List String → String
  | [] => ""
  | [x] => x
  | x :: rest => x ++ ",\n" ++ joinCommaNl rest

mutual
/-- `JSON.stringify(v, null, 2)`: `none` means the JS call returns
`undefined` (functions and `undefined` are not serializable). -/
def jsonVal (lvl : Nat) : Value → Option String
  | .vUndefined => none
  | .vNull => some "null"
  | .vBool true => some "true"
  | .vBool false => some "false"
  | .vNum n => some (toString n)
  | .vStr s => some (jsonQuote s)
  | .vArr [] => some "[]"
  | .vArr (e :: es) =>
      some ("[\n" ++ joinCommaNl (jsonArrItems (lvl + 1) (e :: es)) ++ "\n" ++
        jsonIndent lvl ++ "]")
  | .vObj fields =>
      match jsonFields (lvl + 1) fields with
      | [] => some "{}"
      | items =>
          some ("\x7b\n" ++ joinCommaNl items ++ "\n" ++ jsonIndent lvl ++ "\x7d")
  | .vWrapped _ => none
  | .vBuiltin _ => none

/-- Array items: unserializable elements become `null`. -/
def jsonArrItems (lvl : Nat) : List Value → List String
  | [] => []
  | e :: es =>
      (jsonIndent lvl ++ (jsonVal lvl e).getD "null") :: jsonArrItems lvl es

/-- Object fields: unserializable values are skipped. -/
def jsonFields (lvl : Nat) : List (String × Value) → List String
  | [] => []
  | (k, v) :: fs =>
      match jsonVal lvl v with
      | none => jsonFields lvl fs
      | some sv => (jsonIndent lvl ++ jsonQuote k ++ ": " ++ sv) :: jsonFields lvl fs
end

/-- `typeof result === "object"` (line 42 of execute_tools.ts): true for
`null`, arrays and plain objects; functions are typeof "function" and
the rest are primitives. -/
def typeofIsObject : Value → Bool
  | .vNull | .vArr _ | .vObj _ => true
  | _ => false

/-- Lines 41–44 of execute_tools.ts:
`typeof result === "object" ? JSON.stringify(result, null, 2) : String(result)`.
For object-typed values `JSON.stringify` always yields a string, so the
`getD` default is never taken. -/
def render (result : Value) : String :=
  if typeofIsObject result then (jsonVal 0 result).getD "undefined"
  else jsToString result

/-- The sandbox's local environment (the `tools` parameter plus
declared/assigned bindings).  Newer bindings are prepended. -/
abbrev Env := List (String × Value)

/-- JavaScript truthiness (for `if` / loop tests). -/
def toBool : Value → Bool
  | .vUndefined => false
  | .vNull => false
  | .vBool b => b
  | .vNum n => decide (n ≠ 0)
  | .vStr s => decide (s ≠ "")
  | _ => true

/-- Assignment to an existing binding (or creation if absent). -/
def setVar : Env → String → Value → Env
  | [], x, v => [(x, v)]
  | (n, w) :: rest, x, v =>
      if n == x then (x, v) :: rest else (n, w) :: setVar rest x v

/-- Identifier resolution of the dynamically constructed function: its
own bindings first, then the host's global bindings, then a
`ReferenceError`.  Nothing else is in scope (ECMA-262,
CreateDynamicFunction: the new function closes over the global
environment only). -/
def lookupVar (env G : Env) (name : String) : Except String Value :=
  match lookupAssoc env name with
  | some v => .ok v
  | none =>
      match lookupAssoc G name with
      | some v => .ok v
      | none => .error (name ++ " is not defined")

/-- Property read `o.p`. Reading `execute` on a capability wrapper
yields the wrapper itself — line 26 of execute_tools.ts assigns
`wrappedTools[name].execute = wrapper`, the very same function object. -/
def getProp : Value → String → Except String Value
  | .vObj fields, p => .ok ((lookupAssoc fields p).getD .vUndefined)
  | .vWrapped n, p => if p == "execute" then .ok (.vWrapped n) else .ok .vUndefined
  | .vArr elems, p =>
      if p == "length" then .ok (.vNum elems.length) else .ok .vUndefined
  | .vStr s, p =>
      if p == "length" then .ok (.vNum s.length) else .ok .vUndefined
  | .vNull, p => .error ("Cannot read properties of null (reading " ++ p ++ ")")
  | .vUndefined, p =>
      .error ("Cannot read properties of undefined (reading " ++ p ++ ")")
  | _, _ => .ok .vUndefined

/-- Calling a value.  A capability wrapper forwards its arguments to the
corresponding capability's `execute` behaviour (lines 18–20 of
execute_tools.ts); `String(x)` is the one modelled host builtin. -/
def applyFn (T : List (String × HostFun)) : Value → List Value → Except String Value
  | .vWrapped n, args =>
      match lookupAssoc T n with
      | some fn => fn args
      | none => .error ("tools." ++ n ++ " is not a function")
  | .vBuiltin "String", args =>
      match args with
      | [] => .ok (.vStr "")
      | a :: _ => .ok (.vStr (jsToString a))
  | v, _ => .error (jsToString v ++ " is not a function")

/-- Binary operators on the modelled fragment. -/
def evalBinop : String → Value → Value → Except String Value
  | "+", .vNum a, .vNum b => .ok (.vNum (a + b))
  | "+", .vStr a, .vStr b => .ok (.vStr (a ++ b))
  | "+", .vStr a, b => .ok (.vStr (a ++ jsToString b))
  | "+", a, .vStr b => .ok (.vStr (jsToString a ++ b))
  | "-", .vNum a, .vNum b => .ok (.vNum (a - b))
  | "*", .vNum a, .vNum b => .ok (.vNum (a * b))
  | "<", .vNum a, .vNum b => .ok (.vBool (decide (a < b)))
  | "<=", .vNum a, .vNum b => .ok (.vBool (decide (a ≤ b)))
  | ">", .vNum a, .vNum b => .ok (.vBool (decide (b < a)))
  | ">=", .vNum a, .vNum b => .ok (.vBool (decide (b ≤ a)))
  | _, _, _ => .error "unsupported binary operation"

mutual
/-- Expression evaluation inside the constructed function.  `G` is the
host's global environment, `T` the wrapped capability behaviours, `env`
the local environment.  Purely structural on the expression —
expressions in the modelled fragment always terminate. -/
def evalExpr (G : Env) (T : List (String × HostFun)) (env : Env) :
    Node → Except String Value
  | .ident name => lookupVar env G name
  | .numLit n => .ok (.vNum n)
  | .strLit s => .ok (.vStr s)
  | .boolLit b => .ok (.vBool b)
  | .nullLit => .ok .vNull
  | .arrLit elems =>
      match evalExprList G T env elems with
      | .ok vs => .ok (.vArr vs)
      | .error e => .error e
  | .objLit props =>
      match evalProps G T env props with
      | .ok fs => .ok (.vObj fs)
      | .error e => .error e
  | .member obj prop =>
      match evalExpr G T env obj with
      | .error e => .error e
      | .ok o =>
          match prop with
          | .ident p => getProp o p
          | _ => .error "unsupported member access"
  | .call callee args =>
      match evalExpr G T env callee with
      | .error e => .error e
      | .ok f =>
          match evalExprList G T env args with
          | .error e => .error e
          | .ok vs => applyFn T f vs
  | .awaitE e => evalExpr G T env e
  | .binop op l r =>
      match evalExpr G T env l with
      | .error e => .error e
      | .ok lv =>
          match evalExpr G T env r with
          | .error e => .error e
          | .ok rv => evalBinop op lv rv
  | _ => .error "unsupported expression"

def evalExprList (G : Env) (T : List (String × HostFun)) (env : Env) :
    List Node → Except String (List Value)
  | [] => .ok []
  | e :: rest =>
      match evalExpr G T env e with
      | .error msg => .error msg
      | .ok v =>
          match evalExprList G T env rest with
          | .error msg => .error msg
          | .ok vs => .ok (v :: vs)

def evalProps (G : Env) (T : List (String × HostFun)) (env : Env) :
    List Node → Except String (List (String × Value))
  | [] => .ok []
  | .objProp (.ident k) v :: rest =>
      match evalExpr G T env v with
      | .error msg => .error msg
      | .ok vv =>
          match evalProps G T env rest with
          | .error msg => .error msg
          | .ok fs => .ok ((k, vv) :: fs)
  | .objProp (.strLit k) v :: rest =>
      match evalExpr G T env v with
      | .error msg => .error msg
      | .ok vv =>
          match evalProps G T env rest with
          | .error msg => .error msg
          | .ok fs => .ok ((k, vv) :: fs)
  | _ :: _ => .error "unsupported object property"
end

mutual
/-- Statement-list evaluation.  The first component of the result is
`some v` when a `return` has fired (terminating the wrapping async
IIFE).  The `Nat` is an explicit execution budget: loop constructs
consume it, so divergent loops surface as a budget error (JavaScript
would block forever; no validated-and-terminating program in this
development exhausts the budget). -/
def evalStmts (G : Env) (T : List (String × HostFun)) :
    Nat → Env → List Node → Except String (Option Value × Env)
  | 0, _, _ => .error "execution budget exhausted"
  | _ + 1, env, [] => .ok (none, env)
  | fuel + 1, env, s :: rest =>
      match evalStmt G T fuel env s with
      | .error e => .error e
      | .ok (some v, env2) => .ok (some v, env2)
      | .ok (none, env2) => evalStmts G T fuel env2 rest

def evalStmt (G : Env) (T : List (String × HostFun)) :
    Nat → Env → Node → Except String (Option Value × Env)
  | 0, _, _ => .error "execution budget exhausted"
  | fuel + 1, env, n =>
      match n with
      | .exprStmt (.assign (.ident x) e) =>
          match evalExpr G T env e with
          | .error msg => .error msg
          | .ok v => .ok (none, setVar env x v)
      | .exprStmt e =>
          match evalExpr G T env e with
          | .error msg => .error msg
          | .ok _ => .ok (none, env)
      | .varDecl _ (.ident x) init =>
          match ((match init with
                  | some e => evalExpr G T env e
                  | none => .ok .vUndefined) : Except String Value) with
          | .error msg => .error msg
          | .ok v => .ok (none, (x, v) :: env)
      | .ret none => .ok (some .vUndefined, env)
      | .ret (some e) =>
          match evalExpr G T env e with
          | .error msg => .error msg
          | .ok v => .ok (some v, env)
      | .block body => evalStmts G T fuel env body
      | .ifStmt t th el =>
          match evalExpr G T env t with
          | .error msg => .error msg
          | .ok c =>
              if toBool c then evalStmt G T fuel env th
              else
                match el with
                | some e => evalStmt G T fuel env e
                | none => .ok (none, env)
      | .forStmt init test update body =>
          match ((match init with
                  | none => .ok env
                  | some (.varDecl _ (.ident x) (some e)) =>
                      match evalExpr G T env e with
                      | .error msg => .error msg
                      | .ok v => .ok ((x, v) :: env)
                  | some (.assign (.ident x) e) =>
                      match evalExpr G T env e with
                      | .error msg => .error msg
                      | .ok v => .ok (setVar env x v)
                  | some e =>
                      match evalExpr G T env e with
                      | .error msg => .error msg
                      | .ok _ => .ok env) : Except String Env) with
          | .error msg => .error msg
          | .ok env1 => runForLoop G T fuel env1 test update body
      | .forOfStmt _ (.ident x) iter body =>
          match evalExpr G T env iter with
          | .error msg => .error msg
          | .ok (.vArr elems) => runForOf G T fuel env x elems body
          | .ok _ => .error "value is not iterable"
      | .whileStmt t b => runWhile G T fuel env t b
      | .doWhileStmt b t => runDoWhile G T fuel env b t
      | _ => .error "unsupported statement"

def runForLoop (G : Env) (T : List (String × HostFun)) :
    Nat → Env → Option Node → Option Node → Node →
      Except String (Option Value × Env)
  | 0, _, _, _, _ => .error "execution budget exhausted"
  | fuel + 1, env, test, update, body =>
      match ((match test with
              | none => .ok true
              | some t =>
                  match evalExpr G T env t with
                  | .error msg => .error msg
                  | .ok c => .ok (toBool c)) : Except String Bool) with
      | .error msg => .error msg
      | .ok false => .ok (none, env)
      | .ok true =>
          match evalStmt G T fuel env body with
          | .error msg => .error msg
          | .ok (some v, env2) => .ok (some v, env2)
          | .ok (none, env2) =>
              match ((match update with
                      | none => .ok env2
                      | some (.assign (.ident x) e) =>
                          match evalExpr G T env2 e with
                          | .error msg => .error msg
                          | .ok v => .ok (setVar env2 x v)
                      | some e =>
                          match evalExpr G T env2 e with
                          | .error msg => .error msg
                          | .ok _ => .ok env2) : Except String Env) with
              | .error msg => .error msg
              | .ok env3 => runForLoop G T fuel env3 test update body

def runForOf (G : Env) (T : List (String × HostFun)) :
    Nat → Env → String → List Value → Node →
      Except String (Option Value × Env)
  | 0, _, _, _, _ => .error "execution budget exhausted"
  | _ + 1, env, _, [], _ => .ok (none, env)
  | fuel + 1, env, x, v :: vs, body =>
      match evalStmt G T fuel ((x, v) :: env) body with
      | .error msg => .error msg
      | .ok (some rv, env2) => .ok (some rv, env2)
      | .ok (none, env2) => runForOf G T fuel env2 x vs body

def runWhile (G : Env) (T : List (String × HostFun)) :
    Nat → Env → Node → Node → Except String (Option Value × Env)
  | 0, _, _, _ => .error "execution budget exhausted"
  | fuel + 1, env, t, b =>
      match evalExpr G T env t with
      | .error msg => .error msg
      | .ok c =>
          if toBool c then
            match evalStmt G T fuel env b with
            | .error msg => .error msg
            | .ok (some v, env2) => .ok (some v, env2)
            | .ok (none, env2) => runWhile G T fuel env2 t b
          else .ok (none, env)

def runDoWhile (G : Env) (T : List (String × HostFun)) :
    Nat → Env → Node → Node → Except String (Option Value × Env)
  | 0, _, _, _ => .error "execution budget exhausted"
  | fuel + 1, env, b, t =>
      match evalStmt G T fuel env b with
      | .error msg => .error msg
      | .ok (some v, env2) => .ok (some v, env2)
      | .ok (none, env2) =>
          match evalExpr G T env2 t with
          | .error msg => .error msg
          | .ok c =>
              if toBool c then runDoWhile G T fuel env2 b t
              else .ok (none, env2)
end

/-- The wrapping loop of execute_tools.ts (lines 15–27): for each
capability, allocate a fresh forwarding function
`async (...args) => await tool.execute(...args)` whose behaviour is the
capability's `execute` and whose source text is the constant
`wrapperSource`.  Only the name and the behaviour enter the sandbox;
`executeSrc` does not. -/
def wrapTools (tools : List (String × Tool)) : List (String × HostFun) :=
  tools.map (fun nt => (nt.1, nt.2.execute))

/-- The `tools` argument value: an object binding each capability name
to its wrapper function (`wrappedTools[name] = wrapper`, line 23). -/
def toolsObjVal (T : List (String × HostFun)) : Value :=
  .vObj (T.map (fun nt => (nt.1, .vWrapped nt.1)))

/-- The result record of `executeTools`: always exactly one field,
`output`. -/
structure ExecResult where
  output : String
deriving DecidableEq, Repr

/-- Execution budget (not part of the source; JavaScript runs loops
without bound — see the doc comment on `evalStmts`). -/
def FUEL : Nat := 1000

/-- `executeTools` (execute_tools.ts lines 3–50), parameterized by the
host's global environment `G` so that the dependence of the constructed
function on host globals can be stated.  Steps: validate (return the
`Code validation failed:` message without executing when invalid);
wrap the capabilities; run the snippet with `tools` as the only local
binding; render the settled value, or `Error: <message>` when execution
threw.  The `.error` branch under a valid verdict is unreachable
(a parse failure always invalidates). -/
def executeToolsWith (G : Env) (parsed : Except String (List Node))
    (tools : List (String × Tool)) : ExecResult :=
  let validation := validateCode parsed
  if validation.isValid then
    match parsed with
    | .error _ => ⟨"Code validation failed:\n" ++ joinLines validation.errors⟩
    | .ok body =>
        let wrapped := wrapTools tools
        match evalStmts G wrapped FUEL [("tools", toolsObjVal wrapped)] body with
        | .ok (r, _) => ⟨render (r.getD .vUndefined)⟩
        | .error e => ⟨"Error: " ++ e⟩
  else ⟨"Code validation failed:\n" ++ joinLines validation.errors⟩

/-- The host globals reachable from code constructed with
`new Function` in Node, restricted to the bindings this development
mentions: `undefined`, the `String` constructor, and `console` — the
last being a host ambient object that is *not* in
`FORBIDDEN_IDENTIFIERS`. -/
def nodeGlobals : Env :=
  [("undefined", .vUndefined), ("String", .vBuiltin "String"),
   ("console", .vBuiltin "console")]

/-- `executeTools` as shipped: the constructed function sees the Node
global environment. -/
def executeTools (parsed : Except String (List Node))
    (tools : List (String × Tool)) : ExecResult :=
  executeToolsWith nodeGlobals parsed tools

/-! ### Tool discovery (discover_tools.ts) -/

def joinComma : List String → String
  | [] => ""
  | [x] => x
  | x :: rest => x ++ "," ++ joinComma rest

mutual
/-- Compact `JSON.stringify(v)` (no indent), used on the rendered schema
before searching. -/
def jsonCompact : Value → Option String
  | .vUndefined => none
  | .vNull => some "null"
  | .vBool true => some "true"
  | .vBool false => some "false"
  | .vNum n => some (toString n)
  | .vStr s => some (jsonQuote s)
  | .vArr elems => some ("[" ++ joinComma (jsonCompactArr elems) ++ "]")
  | .vObj fields => some ("\x7b" ++ joinComma (jsonCompactFields fields) ++ "\x7d")
  | .vWrapped _ => none
  | .vBuiltin _ => none

def jsonCompactArr : List Value → List String
  | [] => []
  | e :: es => (jsonCompact e).getD "null" :: jsonCompactArr es

def jsonCompactFields : List (String × Value) → List String
  | [] => []
  | (k, v) :: fs =>
      match jsonCompact v with
      | none => jsonCompactFields fs
      | some sv => (jsonQuote k ++ ":" ++ sv) :: jsonCompactFields fs
end

/-- A catalog entry as discovery sees it (the `Tool` type of
discover_tools.ts, lines 3–7): an optional description and an opaque
zod schema of type `σ`. -/
structure DTool (σ : Type) where
  description : Option String
  inputSchema : σ

/-- One entry of the discovery result (lines 29–33). -/
structure DiscoverEntry where
  name : String
  description : String
  schema : Value

/-- The result shape `{ tools: [...] }`. -/
structure DiscoverResult where
  tools : List DiscoverEntry

/-- The per-entry loop of `discoverToolsInMemory` (lines 17–35): render
the schema (`z.toJSONSchema` may throw, modelled as `.error`), stringify
it, default the description to the empty string, and keep the entry iff
the matcher accepts the name, the description, or the schema string.
The surrounding `try` makes any failure abort the whole traversal. -/
def discoverGo {σ : Type} (rtest : String → Bool) (toJSON : σ → Except Unit Value) :
    List (String × DTool σ) → Except Unit (List DiscoverEntry)
  | [] => .ok []
  | (name, tool) :: rest =>
      match toJSON tool.inputSchema with
      | .error e => .error e
      | .ok schemaJson =>
          let schemaString := (jsonCompact schemaJson).getD "undefined"
          let description := tool.description.getD ""
          match discoverGo rtest toJSON rest with
          | .error e => .error e
          | .ok out =>
              if rtest name || rtest description || rtest schemaString then
                .ok (⟨name, description, schemaJson⟩ :: out)
              else .ok out

/-- `discoverToolsInMemory` (lines 9–41).  The `new RegExp(query, "i")`
construction belongs to the host's regex library and may throw on an
invalid pattern; it is modelled by the abstract `compile` parameter
returning a case-insensitive matcher or failing.  Any failure inside
the `try` yields `{ tools: [] }` (lines 38–40). -/
def discoverToolsInMemory {σ : Type} (compile : String → Except Unit (String → Bool))
    (toJSON : σ → Except Unit Value) (query : String)
    (tools : List (String × DTool σ)) : DiscoverResult :=
  match compile query with
  | .error _ => ⟨[]⟩
  | .ok rtest =>
      match discoverGo rtest toJSON tools with
      | .error _ => ⟨[]⟩
      | .ok l => ⟨l⟩

/-! ### Branch lemmas for `executeToolsWith` -/

theorem executeToolsWith_invalid {G : Env} {parsed : Except String (List Node)}
    {tools : List (String × Tool)} (h : (validateCode parsed).isValid = false) :
    executeToolsWith G parsed tools =
      ⟨"Code validation failed:\n" ++ joinLines (validateCode parsed).errors⟩ := by
  unfold executeToolsWith
  simp [h]

theorem executeToolsWith_valid {G : Env} {body : List Node}
    {tools : List (String × Tool)} (h : (validateCode (.ok body)).isValid = true) :
    executeToolsWith G (.ok body) tools =
      match evalStmts G (wrapTools tools) FUEL
          [("tools", toolsObjVal (wrapTools tools))] body with
      | .ok (r, _) => ⟨render (r.getD .vUndefined)⟩
      | .error e => ⟨"Error: " ++ e⟩ := by
  unfold executeToolsWith
  simp [h]

/-- `"Code validation failed"` is a substring of every invalid-source
output. -/
theorem substr_failed_of_invalid {G : Env} {parsed : Except String (List Node)}
    {tools : List (String × Tool)} (h : (validateCode parsed).isValid = false) :
    Substr "Code validation failed" (executeToolsWith G parsed tools).output := by
  rw [executeToolsWith_invalid h]
  show Substr "Code validation failed"
    ("Code validation failed:\n" ++ joinLines (validateCode parsed).errors)
  have hsplit : ("Code validation failed:\n" : String)
      = "Code validation failed" ++ ":\n" := by decide
  rw [hsplit, String.append_assoc]
  exact (Substr.of_eq).in_left _

/-- Every recorded violation message is a substring of the
invalid-source output. -/
theorem substr_output_of_mem_errors {G : Env} {parsed : Except String (List Node)}
    {tools : List (String × Tool)} {msg : String}
    (h : (validateCode parsed).isValid = false)
    (hmem : msg ∈ (validateCode parsed).errors) :
    Substr msg (executeToolsWith G parsed tools).output := by
  rw [executeToolsWith_invalid h]
  exact (substr_joinLines _ hmem).in_right _

/-- The wrapped program contributes no violations of its own: walking
the wrapper equals walking the snippet's statements. -/
theorem walk_wrapAst (body : List Node) :
    walk (wrapAst body) = walkList body := by
  simp [wrapAst, walk, walkList, walkOpt, nodeErrs]

theorem validateCode_ok_errors (body : List Node) :
    (validateCode (.ok body)).errors = walkList body := by
  simp [validateCode, walk_wrapAst]

theorem validateCode_ok_isValid (body : List Node) :
    (validateCode (.ok body)).isValid = (walkList body).isEmpty := by
  simp [validateCode, walk_wrapAst]

/-- Membership in a statement's walk gives membership in the verdict's
error list. -/
theorem mem_errors_of_subnode {body : List Node} {s m : Node} {msg : String}
    (hs : s ∈ body) (hsub : SubNode m s) (hmsg : msg ∈ nodeErrs m) :
    msg ∈ (validateCode (.ok body)).errors := by
  rw [validateCode_ok_errors]
  exact walk_subset_walkList hs msg (nodeErrs_subset_walk hsub msg hmsg)

theorem invalid_of_mem_errors {parsed : Except String (List Node)} {msg : String}
    (hmem : msg ∈ (validateCode parsed).errors) :
    (validateCode parsed).isValid = false := by
  cases parsed with
  | error e => rfl
  | ok body =>
      rw [validateCode_ok_isValid]
      rw [validateCode_ok_errors] at hmem
      exact List.isEmpty_eq_false.mpr (List.ne_nil_of_mem hmem)

theorem containsList_iff (p : Node → Bool) (body : List Node) :
    containsList p body = true ↔ ∃ s ∈ body, ∃ m, SubNode m s ∧ p m = true := by
  constructor
  · intro h
    obtain ⟨c, hc, hcc⟩ := containsList_elim _ h
    obtain ⟨m, hsub, hpm⟩ := (containsNode_iff p c).mp hcc
    exact ⟨c, hc, m, hsub, hpm⟩
  · rintro ⟨s, hs, m, hsub, hpm⟩
    exact containsNode_of_mem hs ((containsNode_iff p s).mpr ⟨m, hsub, hpm⟩)

/-! ### Small evaluation lemmas with symbolic fuel -/

/-- Running a single `return e;` statement only needs two steps of
budget and yields the value of `e`. -/
theorem evalStmts_ret (G : Env) (T : List (String × HostFun)) (env : Env)
    (e : Node) (fuel : Nat) :
    evalStmts G T (fuel + 2) env [.ret (some e)] =
      match evalExpr G T env e with
      | .error msg => .error msg
      | .ok v => .ok (some v, env) := by
  have hstep : evalStmt G T (fuel + 1) env (.ret (some e)) =
      match evalExpr G T env e with
      | .error msg => .error msg
      | .ok v => .ok (some v, env) := rfl
  cases h : evalExpr G T env e with
  | error msg =>
      show (match evalStmt G T (fuel + 1) env (.ret (some e)) with
            | .error msg => (.error msg : Except String (Option Value × Env))
            | .ok (some v, env2) => .ok (some v, env2)
            | .ok (none, env2) => evalStmts G T (fuel + 1) env2 []) = _
      rw [hstep, h]
  | ok v =>
      show (match evalStmt G T (fuel + 1) env (.ret (some e)) with
            | .error msg => (.error msg : Except String (Option Value × Env))
            | .ok (some v, env2) => .ok (some v, env2)
            | .ok (none, env2) => evalStmts G T (fuel + 1) env2 []) = _
      rw [hstep, h]

/-- Node predicates used to state "the source contains a … node". -/
def isIdentNamed (name : String) : Node → Bool
  | .ident x => x == name
  | _ => false

def isCtorName : Node → Bool
  | .ident x => x == "constructor"
  | _ => false

def isCtorAccess : Node → Bool
  | .member _ p => isCtorName p
  | _ => false

def isNestedCtor : Node → Bool
  | .member obj prop => isCtorAccess obj && isCtorName prop
  | _ => false

def isWhileNode : Node → Bool
  | .whileStmt _ _ => true
  | _ => false

def isDoWhileNode : Node → Bool
  | .doWhileStmt _ _ => true
  | _ => false

def isLoopNode (n : Node) : Bool := isWhileNode n || isDoWhileNode n

/-- C6: `validateCode` is total (a Lean function never raises); its
verdict has `is_valid` true exactly when the violation list is empty;
and a parse failure is reported as a `Failed to parse code:` violation
record with `is_valid = false`, not as an exception. -/
theorem validateCode_verdict :
    (∀ parsed : Except String (List Node),
      ((validateCode parsed).isValid = true ↔ (validateCode parsed).errors = []))
    ∧ (∀ msg : String,
        validateCode (.error msg) =
          ⟨false, ["Failed to parse code: " ++ msg]⟩) := by
  constructor
  · intro parsed
    cases parsed with
    | error e => simp [validateCode]
    | ok body => simp [validateCode]
  · intro msg
    rfl

/-- C5: `executeTools` is total and returns a record with the single
field `output`.  When validation fails, the output is the
`Code validation failed:` message followed by the joined violation
messages, and the result does not depend on the capabilities at all
(the source is never executed, no capability is invoked).  When
validation succeeds and the sandboxed execution fails, the output is
`Error: ` followed by the failure message. -/
theorem executeTools_outcome (parsed : Except String (List Node))
    (tools : List (String × Tool)) :
    ((validateCode parsed).isValid = false →
      executeTools parsed tools =
        ⟨"Code validation failed:\n" ++ joinLines (validateCode parsed).errors⟩
      ∧ ∀ tools2 : List (String × Tool),
          executeTools parsed tools = executeTools parsed tools2)
    ∧ (∀ body : List Node, parsed = .ok body →
        (validateCode parsed).isValid = true →
        ∀ e : String,
          evalStmts nodeGlobals (wrapTools tools) FUEL
              [("tools", toolsObjVal (wrapTools tools))] body = .error e →
          executeTools parsed tools = ⟨"Error: " ++ e⟩) := by
  constructor
  · intro hinv
    constructor
    · exact executeToolsWith_invalid hinv
    · intro tools2
      show executeToolsWith nodeGlobals parsed tools
        = executeToolsWith nodeGlobals parsed tools2
      rw [executeToolsWith_invalid hinv, executeToolsWith_invalid hinv]
  · intro body hbody hval e herr
    subst hbody
    rw [show executeTools (.ok body) tools
        = executeToolsWith nodeGlobals (.ok body) tools from rfl,
      executeToolsWith_valid hval, herr]

/-- C3: every source containing an identifier node whose name is in the
denylist — as a free reference, a property key target, or anywhere
else — gets the violation `Forbidden identifier: <name>` recorded, and
`executeTools` on that source returns an output containing
`Code validation failed` and the message naming that identifier. -/
theorem forbidden_identifier_rejected (body : List Node) (name : String)
    (hname : name ∈ FORBIDDEN_IDENTIFIERS)
    (hocc : containsList (isIdentNamed name) body = true) :
    forbiddenIdentMsg name ∈ (validateCode (.ok body)).errors
    ∧ ∀ tools : List (String × Tool),
        Substr "Code validation failed" (executeTools (.ok body) tools).output
        ∧ Substr (forbiddenIdentMsg name)
            (executeTools (.ok body) tools).output := by
  obtain ⟨s, hs, m, hsub, hpm⟩ := (containsList_iff _ _).mp hocc
  have hm : m = .ident name := by
    cases m <;> simp [isIdentNamed] at hpm
    rename_i x
    rw [hpm]
  subst hm
  have hmsg : forbiddenIdentMsg name ∈ nodeErrs (.ident name) := by
    simp [nodeErrs, hname]
  have hmem := mem_errors_of_subnode hs hsub hmsg
  have hinv := invalid_of_mem_errors hmem
  refine ⟨hmem, fun tools => ⟨?_, ?_⟩⟩
  · exact substr_failed_of_invalid hinv
  · exact substr_output_of_mem_errors hinv hmem

/-- C4: every source containing a property access whose property is
`constructor` and whose object is itself a `constructor` property
access (the `{}.constructor.constructor` escape) gets the
nested-constructor violation recorded — whose message begins with
`Nested constructor property access is not allowed` — and
`executeTools` returns the validation-failure output without ever
executing the source (the output is the same for every capability
set). -/
theorem nested_constructor_rejected (body : List Node)
    (hocc : containsList isNestedCtor body = true) :
    nestedCtorMsg ∈ (validateCode (.ok body)).errors
    ∧ Substr "Nested constructor property access is not allowed" nestedCtorMsg
    ∧ ∀ tools : List (String × Tool),
        executeTools (.ok body) tools =
          ⟨"Code validation failed:\n" ++
            joinLines (validateCode (.ok body)).errors⟩
        ∧ Substr "Code validation failed" (executeTools (.ok body) tools).output := by
  obtain ⟨s, hs, m, hsub, hpm⟩ := (containsList_iff _ _).mp hocc
  have hmsg : nestedCtorMsg ∈ nodeErrs m := by
    cases m <;> simp [isNestedCtor, Bool.and_eq_true] at hpm
    rename_i obj prop
    obtain ⟨hobj, hprop⟩ := hpm
    cases obj <;> simp [isCtorAccess] at hobj
    rename_i o p
    cases p <;> simp [isCtorName] at hobj
    cases prop <;> simp [isCtorName] at hprop
    subst hobj
    subst hprop
    simp [nodeErrs]
  have hmem := mem_errors_of_subnode hs hsub hmsg
  have hinv := invalid_of_mem_errors hmem
  refine ⟨hmem, ?_, fun tools => ⟨executeToolsWith_invalid hinv, ?_⟩⟩
  · exact ⟨"", " (potential Function constructor escape)", by decide⟩
  · exact substr_failed_of_invalid hinv

/-! ### Concrete programs used by the claims -/

/-- `let s = 0; for (let i = 0; i < 3; i = i + 1) { s = s + i; } return s;` -/
def forLoopProgram : List Node :=
  [.varDecl "let" (.ident "s") (some (.numLit 0)),
   .forStmt (some (.varDecl "let" (.ident "i") (some (.numLit 0))))
     (some (.binop "<" (.ident "i") (.numLit 3)))
     (some (.assign (.ident "i") (.binop "+" (.ident "i") (.numLit 1))))
     (.block [.exprStmt (.assign (.ident "s")
        (.binop "+" (.ident "s") (.ident "i")))]),
   .ret (some (.ident "s"))]

/-- `let s = 0; for (const x of [1, 2, 3]) { s = s + x; } return s;` -/
def forOfProgram : List Node :=
  [.varDecl "let" (.ident "s") (some (.numLit 0)),
   .forOfStmt "const" (.ident "x")
     (.arrLit [.numLit 1, .numLit 2, .numLit 3])
     (.block [.exprStmt (.assign (.ident "s")
        (.binop "+" (.ident "s") (.ident "x")))]),
   .ret (some (.ident "s"))]

/-- `return "process";` — a denylisted name inside string data only. -/
def strLitProgram : List Node := [.ret (some (.strLit "process"))]

/-- `return console;` — a host global that is not denylisted. -/
def consoleProgram : List Node := [.ret (some (.ident "console"))]

set_option maxRecDepth 80000 in
/-- C7: sources containing a `while` (resp. `do-while`) loop fail
validation with the loop-specific message, which also reaches the
output of `executeTools`; sources without while/do-while nodes get no
loop violation; and the two concrete `for` / `for...of` programs pass
validation and execute to completion. -/
theorem loop_policy (body : List Node) :
    (containsList isWhileNode body = true →
      whileMsg ∈ (validateCode (.ok body)).errors
      ∧ ∀ tools : List (String × Tool),
          Substr "Code validation failed" (executeTools (.ok body) tools).output
          ∧ Substr whileMsg (executeTools (.ok body) tools).output)
    ∧ (containsList isDoWhileNode body = true →
      doWhileMsg ∈ (validateCode (.ok body)).errors
      ∧ ∀ tools : List (String × Tool),
          Substr "Code validation failed" (executeTools (.ok body) tools).output
          ∧ Substr doWhileMsg (executeTools (.ok body) tools).output)
    ∧ (containsList isLoopNode body = false →
      whileMsg ∉ (validateCode (.ok body)).errors
      ∧ doWhileMsg ∉ (validateCode (.ok body)).errors)
    ∧ ((validateCode (.ok forLoopProgram)).isValid = true
      ∧ executeTools (.ok forLoopProgram) [] = ⟨"3"⟩
      ∧ (validateCode (.ok forOfProgram)).isValid = true
      ∧ executeTools (.ok forOfProgram) [] = ⟨"6"⟩) := by
  refine ⟨?_, ?_, ?_, ?_⟩
  · intro hocc
    obtain ⟨s, hs, m, hsub, hpm⟩ := (containsList_iff _ _).mp hocc
    have hmsg : whileMsg ∈ nodeErrs m := by
      cases m <;> simp [isWhileNode] at hpm
      simp [nodeErrs]
    have hmem := mem_errors_of_subnode hs hsub hmsg
    have hinv := invalid_of_mem_errors hmem
    exact ⟨hmem, fun tools =>
      ⟨substr_failed_of_invalid hinv, substr_output_of_mem_errors hinv hmem⟩⟩
  · intro hocc
    obtain ⟨s, hs, m, hsub, hpm⟩ := (containsList_iff _ _).mp hocc
    have hmsg : doWhileMsg ∈ nodeErrs m := by
      cases m <;> simp [isDoWhileNode] at hpm
      simp [nodeErrs]
    have hmem := mem_errors_of_subnode hs hsub hmsg
    have hinv := invalid_of_mem_errors hmem
    exact ⟨hmem, fun tools =>
      ⟨substr_failed_of_invalid hinv, substr_output_of_mem_errors hinv hmem⟩⟩
  · intro hno
    constructor
    · intro hmem
      rw [validateCode_ok_errors] at hmem
      obtain ⟨s, hs, hws⟩ := mem_walkList_elim _ hmem
      obtain ⟨m, hsub, hem⟩ := mem_walk_elim _ hws
      obtain ⟨t, b, rfl⟩ := whileMsg_nodeErrs hem
      have : containsList isLoopNode body = true :=
        (containsList_iff _ _).mpr
          ⟨s, hs, _, hsub, by simp [isLoopNode, isWhileNode]⟩
      rw [hno] at this
      exact Bool.false_ne_true this
    · intro hmem
      rw [validateCode_ok_errors] at hmem
      obtain ⟨s, hs, hws⟩ := mem_walkList_elim _ hmem
      obtain ⟨m, hsub, hem⟩ := mem_walk_elim _ hws
      obtain ⟨b, t, rfl⟩ := doWhileMsg_nodeErrs hem
      have : containsList isLoopNode body = true :=
        (containsList_iff _ _).mpr
          ⟨s, hs, _, hsub, by simp [isLoopNode, isDoWhileNode]⟩
      rw [hno] at this
      exact Bool.false_ne_true this
  · exact ⟨by decide, by decide, by decide, by decide⟩

set_option maxRecDepth 20000 in
/-- C9: the denylist is purely syntactic over identifier nodes.  If a
denylisted name never occurs as an identifier node (string-literal
contents are `strLit` data, not identifier nodes), no
`Forbidden identifier` violation is recorded for it; if no violation at
all is recorded, the source is declared valid and handed to the
evaluator.  Concretely, `return "process";` validates and executes,
producing the output `process`. -/
theorem denylist_is_syntactic (body : List Node) (name : String)
    (hname : name ∈ FORBIDDEN_IDENTIFIERS)
    (hnoid : containsList (isIdentNamed name) body = false) :
    forbiddenIdentMsg name ∉ (validateCode (.ok body)).errors
    ∧ ((validateCode (.ok body)).errors = [] →
        (validateCode (.ok body)).isValid = true
        ∧ ∀ (G : Env) (tools : List (String × Tool)),
            executeToolsWith G (.ok body) tools =
              match evalStmts G (wrapTools tools) FUEL
                  [("tools", toolsObjVal (wrapTools tools))] body with
              | .ok (r, _) => ⟨render (r.getD .vUndefined)⟩
              | .error e => ⟨"Error: " ++ e⟩)
    ∧ ((validateCode (.ok strLitProgram)).isValid = true
        ∧ executeTools (.ok strLitProgram) [] = ⟨"process"⟩) := by
  refine ⟨?_, ?_, by decide, by decide⟩
  · intro hmem
    rw [validateCode_ok_errors] at hmem
    obtain ⟨s, hs, hws⟩ := mem_walkList_elim _ hmem
    obtain ⟨m, hsub, hem⟩ := mem_walk_elim _ hws
    obtain ⟨rfl, -⟩ := forbiddenIdentMsg_nodeErrs hem
    have : containsList (isIdentNamed name) body = true :=
      (containsList_iff _ _).mpr
        ⟨s, hs, _, hsub, by simp [isIdentNamed]⟩
    rw [hnoid] at this
    exact Bool.false_ne_true this
  · intro hE
    have hval : (validateCode (.ok body)).isValid = true := by
      rw [validateCode_ok_isValid]
      rw [validateCode_ok_errors] at hE
      rw [hE]
      rfl
    exact ⟨hval, fun G tools => executeToolsWith_valid hval⟩

set_option maxRecDepth 20000 in
/-- C1 counterexample: the validated source `return console;` (the name
`console` is not in the denylist) observes a host ambient binding
through the constructed function: change the host's global binding of
`console` and the output of the evaluator changes; with Node's real
globals it returns the host `console` object's rendering.  So the
constructed function *does* have lexical access to host bindings beyond
its single parameter — the full isolation claim fails. -/
theorem sandbox_reads_host_global :
    (validateCode (.ok consoleProgram)).isValid = true
    ∧ executeToolsWith [("console", .vStr "host-console-A")]
        (.ok consoleProgram) []
      ≠ executeToolsWith [("console", .vStr "host-console-B")]
          (.ok consoleProgram) []
    ∧ executeTools (.ok consoleProgram) [] =
        ⟨"function console() { [native code] }"⟩ := by
  refine ⟨by decide, by decide, by decide⟩

/-- C1 (amended): the constructed function's scope is exactly its
single parameter (`tools`), its own declarations, and the host's
*global* bindings; the host program's module-level and local bindings
are unreachable.  A name bound neither locally, nor to the parameter,
nor in the globals produces a `ReferenceError`, for every capability
set and every global environment. -/
theorem sandbox_scope_is_param_and_globals (G : Env)
    (tools : List (String × Tool)) (name : String)
    (hG : lookupAssoc G name = none) (hp : name ≠ "tools")
    (hF : name ∉ FORBIDDEN_IDENTIFIERS) :
    executeToolsWith G (.ok [.ret (some (.ident name))]) tools
      = ⟨"Error: " ++ (name ++ " is not defined")⟩ := by
  have hval : (validateCode (.ok [.ret (some (.ident name))])).isValid = true := by
    rw [validateCode_ok_isValid]
    simp [walkList, walk, walkOpt, nodeErrs, hF]
  rw [executeToolsWith_valid hval]
  have hFUEL : FUEL = 998 + 2 := rfl
  rw [hFUEL, evalStmts_ret]
  have hev : evalExpr G (wrapTools tools)
      [("tools", toolsObjVal (wrapTools tools))] (.ident name)
      = .error (name ++ " is not defined") := by
    show lookupVar [("tools", toolsObjVal (wrapTools tools))] G name = _
    simp [lookupVar, lookupAssoc, beq_eq_false_iff_ne.mpr (Ne.symm hp), hG]
  rw [hev]

theorem lookupAssoc_wrappedMap (T : List (String × HostFun)) (name : String)
    (h : name ∈ T.map Prod.fst) :
    lookupAssoc (T.map fun nt => (nt.1, Value.vWrapped nt.1)) name
      = some (.vWrapped name) := by
  induction T with
  | nil => simp at h
  | cons nt rest ih =>
      rw [List.map_cons]
      show (if nt.1 == name then some (Value.vWrapped nt.1)
            else lookupAssoc (rest.map fun nt => (nt.1, Value.vWrapped nt.1)) name)
          = some (.vWrapped name)
      by_cases hn : nt.1 = name
      · subst hn
        simp
      · rw [if_neg (by simpa using hn)]
        rw [List.map_cons] at h
        rcases List.mem_cons.mp h with hh | hh
        · exact absurd hh.symm hn
        · exact ih hh

/-- C2: for every capability set and every capability name in it, the
wrapped environment binds the name to the fresh per-call wrapper (a
model value distinct from any host function); reading its `.execute`
property yields the identical wrapper object; stringifying the wrapper
yields the constant wrapper source text (never the capability's); and
the entire observable behaviour of `executeTools` depends on the
capabilities only through their names and invoke behaviours — the
invoke source text (where closure secrets live) cannot influence any
output.  Concretely, code that stringifies a capability outputs exactly
the wrapper text for *every* capability implementation. -/
theorem capability_wrapper_isolation (tools1 tools2 : List (String × Tool))
    (name : String) :
    (name ∈ tools1.map Prod.fst →
      evalExpr nodeGlobals (wrapTools tools1)
          [("tools", toolsObjVal (wrapTools tools1))]
          (.member (.ident "tools") (.ident name)) = .ok (.vWrapped name)
      ∧ evalExpr nodeGlobals (wrapTools tools1)
          [("tools", toolsObjVal (wrapTools tools1))]
          (.member (.member (.ident "tools") (.ident name)) (.ident "execute"))
        = evalExpr nodeGlobals (wrapTools tools1)
            [("tools", toolsObjVal (wrapTools tools1))]
            (.member (.ident "tools") (.ident name))
      ∧ jsToString (.vWrapped name) = wrapperSource)
    ∧ (wrapTools tools1 = wrapTools tools2 →
        ∀ (G : Env) (parsed : Except String (List Node)),
          executeToolsWith G parsed tools1 = executeToolsWith G parsed tools2)
    ∧ (∀ t : Tool,
        executeTools (.ok [.ret (some (.call (.ident "String")
            [.member (.ident "tools") (.ident "g")]))]) [("g", t)]
          = ⟨wrapperSource⟩) := by
  refine ⟨?_, ?_, ?_⟩
  · intro hmem
    have hnames : name ∈ (wrapTools tools1).map Prod.fst := by
      simpa [wrapTools, List.map_map, Function.comp] using hmem
    have h1 : evalExpr nodeGlobals (wrapTools tools1)
        [("tools", toolsObjVal (wrapTools tools1))]
        (.member (.ident "tools") (.ident name)) = .ok (.vWrapped name) := by
      show getProp (toolsObjVal (wrapTools tools1)) name = .ok (.vWrapped name)
      show (Except.ok ((lookupAssoc ((wrapTools tools1).map fun nt =>
          (nt.1, Value.vWrapped nt.1)) name).getD Value.vUndefined)
          : Except String Value) = .ok (.vWrapped name)
      rw [lookupAssoc_wrappedMap _ _ hnames]
      rfl
    refine ⟨h1, ?_, rfl⟩
    have h2 : evalExpr nodeGlobals (wrapTools tools1)
        [("tools", toolsObjVal (wrapTools tools1))]
        (.member (.member (.ident "tools") (.ident name)) (.ident "execute"))
        = getProp (.vWrapped name) "execute" := by
      show ((match evalExpr nodeGlobals (wrapTools tools1)
              [("tools", toolsObjVal (wrapTools tools1))]
              (.member (.ident "tools") (.ident name)) with
             | Except.error e => Except.error e
             | Except.ok o => getProp o "execute") : Except String Value) = _
      rw [h1]
    rw [h2, h1]
    rfl
  · intro hw G parsed
    unfold executeToolsWith
    rw [hw]
  · intro t
    rfl

mutual
/-- Data values: the values expressible as JavaScript literals (no
function objects). -/
def isData : Value → Bool
  | .vUndefined => true
  | .vNull => true
  | .vBool _ => true
  | .vNum _ => true
  | .vStr _ => true
  | .vArr es => isDataList es
  | .vObj fs => isDataFields fs
  | .vWrapped _ => false
  | .vBuiltin _ => false

def isDataList : List Value → Bool
  | [] => true
  | v :: vs => isData v && isDataList vs

def isDataFields : List (String × Value) → Bool
  | [] => true
  | (_, v) :: fs => isData v && isDataFields fs
end

mutual
/-- The literal expression denoting a data value (object keys are
written as string literals, which is legal JavaScript for every key and
keeps keys out of the identifier namespace). -/
def litOf : Value → Node
  | .vUndefined => .ident "undefined"
  | .vNull => .nullLit
  | .vBool b => .boolLit b
  | .vNum n => .numLit n
  | .vStr s => .strLit s
  | .vArr es => .arrLit (litOfList es)
  | .vObj fs => .objLit (litOfFields fs)
  | .vWrapped _ => .nullLit
  | .vBuiltin _ => .nullLit

def litOfList : List Value → List Node
  | [] => []
  | v :: vs => litOf v :: litOfList vs

def litOfFields : List (String × Value) → List Node
  | [] => []
  | (k, v) :: fs => .objProp (.strLit k) (litOf v) :: litOfFields fs
end

/-- Literals of data values carry no violations. -/
theorem walk_litOf : ∀ v : Value, isData v = true → walk (litOf v) = [] := by
  have H := litOf.induct
    (fun v => isData v = true → walk (litOf v) = [])
    (fun fs => isDataFields fs = true → walkList (litOfFields fs) = [])
    (fun es => isDataList es = true → walkList (litOfList es) = [])
  intro v
  apply H <;>
    intros <;>
    simp_all [isData, isDataList, isDataFields, litOf, litOfList, litOfFields,
      walk, walkList, walkOpt, nodeErrs, FORBIDDEN_IDENTIFIERS]

/-- Evaluating the literal of a data value yields that value, in any
sandbox environment of the shape `executeTools` builds. -/
theorem evalExpr_litOf :
    ∀ v : Value, isData v = true →
      ∀ (T : List (String × HostFun)) (tv : Value),
        evalExpr nodeGlobals T [("tools", tv)] (litOf v) = .ok v := by
  have H := litOf.induct
    (fun v => isData v = true →
      ∀ (T : List (String × HostFun)) (tv : Value),
        evalExpr nodeGlobals T [("tools", tv)] (litOf v) = .ok v)
    (fun fs => isDataFields fs = true →
      ∀ (T : List (String × HostFun)) (tv : Value),
        evalProps nodeGlobals T [("tools", tv)] (litOfFields fs) = .ok fs)
    (fun es => isDataList es = true →
      ∀ (T : List (String × HostFun)) (tv : Value),
        evalExprList nodeGlobals T [("tools", tv)] (litOfList es) = .ok es)
  intro v
  apply H <;>
    intros <;>
    simp_all [isData, isDataList, isDataFields, litOf, litOfList, litOfFields,
      evalExpr, evalExprList, evalProps, lookupVar, lookupAssoc, nodeGlobals]

/-- A capability whose invoke is the identity function (`async (v) => v`). -/
def identityTool : Tool :=
  { execute := fun args => .ok (args.headD .vUndefined)
    executeSrc := "async (v) => v" }

/-- `return await tools.id(<literal of v>);` -/
def roundTripCode (v : Value) : List Node :=
  [.ret (some (.awaitE (.call (.member (.ident "tools") (.ident "id"))
    [litOf v])))]

/-- C8: running `executeTools` on code that only calls the identity
capability on (the literal of) a data value `v` and returns the result
validates and yields exactly `v`'s rendered form: the 2-space-indented
JSON serialization when `v` is object-typed, its plain string
conversion otherwise. -/
theorem identity_round_trip (v : Value) (hv : isData v = true) :
    (validateCode (.ok (roundTripCode v))).isValid = true
    ∧ executeTools (.ok (roundTripCode v)) [("id", identityTool)]
      = ⟨if typeofIsObject v then (jsonVal 0 v).getD "undefined"
         else jsToString v⟩ := by
  have hval : (validateCode (.ok (roundTripCode v))).isValid = true := by
    rw [validateCode_ok_isValid]
    simp [roundTripCode, walkList, walk, walkOpt, nodeErrs, walk_litOf v hv,
      FORBIDDEN_IDENTIFIERS]
  refine ⟨hval, ?_⟩
  show executeToolsWith nodeGlobals (.ok (roundTripCode v)) [("id", identityTool)]
    = _
  rw [executeToolsWith_valid hval]
  have hFUEL : FUEL = 998 + 2 := rfl
  rw [show roundTripCode v = [.ret (some (.awaitE (.call
      (.member (.ident "tools") (.ident "id")) [litOf v])))] from rfl, hFUEL,
    evalStmts_ret]
  have hargs : evalExprList nodeGlobals (wrapTools [("id", identityTool)])
      [("tools", toolsObjVal (wrapTools [("id", identityTool)]))] [litOf v]
      = .ok [v] := by
    show ((match evalExpr nodeGlobals (wrapTools [("id", identityTool)])
            [("tools", toolsObjVal (wrapTools [("id", identityTool)]))]
            (litOf v) with
          | Except.error msg => Except.error msg
          | Except.ok w =>
              match evalExprList nodeGlobals (wrapTools [("id", identityTool)])
                  [("tools", toolsObjVal (wrapTools [("id", identityTool)]))]
                  [] with
              | Except.error msg => Except.error msg
              | Except.ok vs => Except.ok (w :: vs))
        : Except String (List Value)) = .ok [v]
    rw [evalExpr_litOf v hv]
    rfl
  have hev : evalExpr nodeGlobals (wrapTools [("id", identityTool)])
      [("tools", toolsObjVal (wrapTools [("id", identityTool)]))]
      (.awaitE (.call (.member (.ident "tools") (.ident "id")) [litOf v]))
      = .ok v := by
    show ((match evalExprList nodeGlobals (wrapTools [("id", identityTool)])
            [("tools", toolsObjVal (wrapTools [("id", identityTool)]))]
            [litOf v] with
          | Except.error msg => Except.error msg
          | Except.ok vs => applyFn (wrapTools [("id", identityTool)])
              (Value.vWrapped "id") vs)
        : Except String Value) = .ok v
    rw [hargs]
    rfl
  rw [hev]
  rfl

theorem discoverGo_error {σ : Type} (rtest : String → Bool)
    (toJSON : σ → Except Unit Value) :
    ∀ tools : List (String × DTool σ),
      (∃ nt ∈ tools, ∃ e, toJSON nt.2.inputSchema = .error e) →
      ∃ e, discoverGo rtest toJSON tools = .error e := by
  intro tools h
  induction tools with
  | nil => simp at h
  | cons nt rest ih =>
      obtain ⟨mt, hmt, e, he⟩ := h
      rcases List.mem_cons.mp hmt with hh | hh
      · subst hh
        exact ⟨e, by rw [show discoverGo rtest toJSON (mt :: rest)
            = (match toJSON mt.2.inputSchema with
               | .error e => .error e
               | .ok schemaJson =>
                  match discoverGo rtest toJSON rest with
                  | .error e => .error e
                  | .ok out =>
                      if rtest mt.1 || rtest (mt.2.description.getD "") ||
                          rtest ((jsonCompact schemaJson).getD "undefined") then
                        .ok (⟨mt.1, mt.2.description.getD "", schemaJson⟩ :: out)
                      else .ok out) from rfl, he]⟩
      · obtain ⟨e2, he2⟩ := ih ⟨mt, hh, e, he⟩
        cases hj : toJSON nt.2.inputSchema with
        | error e3 =>
            exact ⟨e3, by rw [show discoverGo rtest toJSON (nt :: rest)
              = (match toJSON nt.2.inputSchema with
                 | .error e => .error e
                 | .ok schemaJson =>
                    match discoverGo rtest toJSON rest with
                    | .error e => .error e
                    | .ok out =>
                        if rtest nt.1 || rtest (nt.2.description.getD "") ||
                            rtest ((jsonCompact schemaJson).getD "undefined") then
                          .ok (⟨nt.1, nt.2.description.getD "", schemaJson⟩ :: out)
                        else .ok out) from rfl, hj]⟩
        | ok sj =>
            exact ⟨e2, by rw [show discoverGo rtest toJSON (nt :: rest)
              = (match toJSON nt.2.inputSchema with
                 | .error e => .error e
                 | .ok schemaJson =>
                    match discoverGo rtest toJSON rest with
                    | .error e => .error e
                    | .ok out =>
                        if rtest nt.1 || rtest (nt.2.description.getD "") ||
                            rtest ((jsonCompact schemaJson).getD "undefined") then
                          .ok (⟨nt.1, nt.2.description.getD "", schemaJson⟩ :: out)
                        else .ok out) from rfl, hj, he2]⟩

theorem discoverGo_ok {σ : Type} (rtest : String → Bool)
    (toJSON : σ → Except Unit Value) (f : σ → Value)
    (hf : ∀ s, toJSON s = .ok (f s)) :
    ∀ tools : List (String × DTool σ),
      discoverGo rtest toJSON tools = .ok (tools.filterMap fun nt =>
        if rtest nt.1 || rtest (nt.2.description.getD "") ||
            rtest ((jsonCompact (f nt.2.inputSchema)).getD "undefined")
        then some ⟨nt.1, nt.2.description.getD "", f nt.2.inputSchema⟩
        else none) := by
  intro tools
  induction tools with
  | nil => rfl
  | cons nt rest ih =>
      obtain ⟨name, tool⟩ := nt
      simp only [discoverGo, hf, ih, List.filterMap_cons]
      cases hc : (rtest name || rtest (tool.description.getD "") ||
          rtest ((jsonCompact (f tool.inputSchema)).getD "undefined")) with
      | true => rfl
      | false => rfl

/-- C10: discovery is total and best-effort.  If pattern compilation
(`new RegExp(query, "i")`, modelled by the abstract `compile`) fails,
the result is the empty list; if any schema rendering
(`z.toJSONSchema`) fails, the whole call degrades to the empty list;
when everything succeeds, the result contains exactly the entries —
in catalog order — whose name, defaulted description, or stringified
rendered schema the matcher accepts, each entry carrying
`{name, description, schema}`. -/
theorem discover_best_effort {σ : Type}
    (compile : String → Except Unit (String → Bool))
    (toJSON : σ → Except Unit Value) (query : String)
    (tools : List (String × DTool σ)) :
    (∀ e, compile query = .error e →
      discoverToolsInMemory compile toJSON query tools = ⟨[]⟩)
    ∧ ∀ rtest : String → Bool, compile query = .ok rtest →
        ((∃ nt ∈ tools, ∃ e, toJSON nt.2.inputSchema = .error e) →
          discoverToolsInMemory compile toJSON query tools = ⟨[]⟩)
        ∧ ∀ f : σ → Value, (∀ s, toJSON s = .ok (f s)) →
            discoverToolsInMemory compile toJSON query tools =
              ⟨tools.filterMap fun nt =>
                if rtest nt.1 || rtest (nt.2.description.getD "") ||
                    rtest ((jsonCompact (f nt.2.inputSchema)).getD "undefined")
                then some ⟨nt.1, nt.2.description.getD "", f nt.2.inputSchema⟩
                else none⟩ := by
  constructor
  · intro e he
    unfold discoverToolsInMemory
    rw [he]
  · intro rtest hr
    constructor
    · intro hbad
      obtain ⟨e2, he2⟩ := discoverGo_error rtest toJSON tools hbad
      unfold discoverToolsInMemory
      rw [hr]
      show ((match discoverGo rtest toJSON tools with
             | Except.error _ => ⟨[]⟩
             | Except.ok l => ⟨l⟩) : DiscoverResult) = ⟨[]⟩
      rw [he2]
    · intro f hf
      unfold discoverToolsInMemory
      rw [hr]
      show ((match discoverGo rtest toJSON tools with
             | Except.error _ => ⟨[]⟩
             | Except.ok l => ⟨l⟩) : DiscoverResult) = _
      rw [discoverGo_ok rtest toJSON f hf tools]

/-! ### Concrete witnesses -/

/-- `const fs = require("fs"); return fs;` -/
def requireProgram : List Node :=
  [.varDecl "const" (.ident "fs")
     (some (.call (.ident "require") [.strLit "fs"])),
   .ret (some (.ident "fs"))]

/-- `const F = {}.constructor.constructor; return F("return 1")();` -/
def nestedCtorProgram : List Node :=
  [.varDecl "const" (.ident "F")
     (some (.member (.member (.objLit []) (.ident "constructor"))
        (.ident "constructor"))),
   .ret (some (.call (.call (.ident "F") [.strLit "return 1"]) []))]

/-- `let i = 0; while (true) { i = i + 1; } return i;` -/
def whileProgram : List Node :=
  [.varDecl "let" (.ident "i") (some (.numLit 0)),
   .whileStmt (.boolLit true)
     (.block [.exprStmt (.assign (.ident "i")
        (.binop "+" (.ident "i") (.numLit 1)))]),
   .ret (some (.ident "i"))]

/-- `do { } while (false); return 0;` -/
def doWhileProgram : List Node :=
  [.doWhileStmt (.block []) (.boolLit false),
   .ret (some (.numLit 0))]

/-- `return null.x;` — validates, then throws at run time. -/
def nullReadProgram : List Node :=
  [.ret (some (.member .nullLit (.ident "x")))]

/-- A capability whose implementation text embeds a secret, and the
same behaviour with the text scrubbed. -/
def secretTool : Tool :=
  { execute := fun args => .ok (args.headD .vUndefined)
    executeSrc := "async (x) => SECRET_API_KEY + x" }

def scrubbedTool : Tool :=
  { execute := fun args => .ok (args.headD .vUndefined)
    executeSrc := "" }

set_option maxRecDepth 20000 in
theorem sandbox_scope_is_param_and_globals_witness :
    lookupAssoc nodeGlobals "wrappedTools" = none
    ∧ "wrappedTools" ≠ "tools"
    ∧ "wrappedTools" ∉ FORBIDDEN_IDENTIFIERS
    ∧ executeToolsWith nodeGlobals
        (.ok [.ret (some (.ident "wrappedTools"))]) []
        = ⟨"Error: " ++ ("wrappedTools" ++ " is not defined")⟩ :=
  ⟨rfl, by decide, by decide,
   sandbox_scope_is_param_and_globals nodeGlobals [] "wrappedTools"
     rfl (by decide) (by decide)⟩

set_option maxRecDepth 20000 in
theorem capability_wrapper_isolation_witness :
    "g" ∈ ([("g", secretTool)].map Prod.fst)
    ∧ evalExpr nodeGlobals (wrapTools [("g", secretTool)])
        [("tools", toolsObjVal (wrapTools [("g", secretTool)]))]
        (.member (.ident "tools") (.ident "g")) = .ok (.vWrapped "g")
    ∧ executeToolsWith nodeGlobals (.ok [.ret none]) [("g", secretTool)]
        = executeToolsWith nodeGlobals (.ok [.ret none]) [("g", scrubbedTool)]
    ∧ executeTools (.ok [.ret (some (.call (.ident "String")
        [.member (.ident "tools") (.ident "g")]))]) [("g", secretTool)]
        = ⟨wrapperSource⟩ := by
  have H := capability_wrapper_isolation [("g", secretTool)]
    [("g", scrubbedTool)] "g"
  exact ⟨by decide, (H.1 (by decide)).1,
    H.2.1 rfl nodeGlobals (.ok [.ret none]), H.2.2 secretTool⟩

set_option maxRecDepth 20000 in
theorem forbidden_identifier_rejected_witness :
    "require" ∈ FORBIDDEN_IDENTIFIERS
    ∧ containsList (isIdentNamed "require") requireProgram = true
    ∧ forbiddenIdentMsg "require" ∈ (validateCode (.ok requireProgram)).errors
    ∧ Substr "Code validation failed"
        (executeTools (.ok requireProgram) []).output
    ∧ Substr (forbiddenIdentMsg "require")
        (executeTools (.ok requireProgram) []).output := by
  have H := forbidden_identifier_rejected requireProgram "require"
    (by decide) (by decide)
  exact ⟨by decide, by decide, H.1, (H.2 []).1, (H.2 []).2⟩

set_option maxRecDepth 20000 in
theorem nested_constructor_rejected_witness :
    containsList isNestedCtor nestedCtorProgram = true
    ∧ nestedCtorMsg ∈ (validateCode (.ok nestedCtorProgram)).errors
    ∧ executeTools (.ok nestedCtorProgram) [] =
        ⟨"Code validation failed:\n" ++
          joinLines (validateCode (.ok nestedCtorProgram)).errors⟩
    ∧ Substr "Code validation failed"
        (executeTools (.ok nestedCtorProgram) []).output := by
  have H := nested_constructor_rejected nestedCtorProgram (by decide)
  exact ⟨by decide, H.1, (H.2.2 []).1, (H.2.2 []).2⟩

set_option maxRecDepth 20000 in
theorem executeTools_outcome_witness :
    ((validateCode (.ok [.ret (some (.ident "process"))])).isValid = false
      ∧ executeTools (.ok [.ret (some (.ident "process"))]) [] =
          ⟨"Code validation failed:\nForbidden identifier: process"⟩)
    ∧ executeTools (.ok nullReadProgram) [] =
        ⟨"Error: Cannot read properties of null (reading x)"⟩ := by
  have H1 := executeTools_outcome (.ok [.ret (some (.ident "process"))])
    ([] : List (String × Tool))
  have H2 := executeTools_outcome (.ok nullReadProgram)
    ([] : List (String × Tool))
  refine ⟨⟨by decide, ?_⟩, ?_⟩
  · rw [(H1.1 (by decide)).1]
    decide
  · exact H2.2 nullReadProgram rfl (by decide) _ (by rfl)

set_option maxRecDepth 80000 in
theorem loop_policy_witness :
    containsList isWhileNode whileProgram = true
    ∧ whileMsg ∈ (validateCode (.ok whileProgram)).errors
    ∧ Substr whileMsg (executeTools (.ok whileProgram) []).output
    ∧ containsList isDoWhileNode doWhileProgram = true
    ∧ doWhileMsg ∈ (validateCode (.ok doWhileProgram)).errors
    ∧ containsList isLoopNode forLoopProgram = false
    ∧ whileMsg ∉ (validateCode (.ok forLoopProgram)).errors
    ∧ executeTools (.ok forLoopProgram) [] = ⟨"3"⟩
    ∧ executeTools (.ok forOfProgram) [] = ⟨"6"⟩ := by
  have HW := loop_policy whileProgram
  have HD := loop_policy doWhileProgram
  have HF := loop_policy forLoopProgram
  exact ⟨by decide, (HW.1 (by decide)).1, ((HW.1 (by decide)).2 []).2,
    by decide, (HD.2.1 (by decide)).1,
    by decide, (HF.2.2.1 (by decide)).1,
    HF.2.2.2.2.1, HF.2.2.2.2.2.2⟩

set_option maxRecDepth 40000 in
theorem identity_round_trip_witness :
    isData (Value.vObj [("a", .vNum 1), ("b", .vArr [.vStr "x", .vNull])]) = true
    ∧ executeTools
        (.ok (roundTripCode (.vObj [("a", .vNum 1),
          ("b", .vArr [.vStr "x", .vNull])])))
        [("id", identityTool)]
      = ⟨"\x7b\n  \"a\": 1,\n  \"b\": [\n    \"x\",\n    null\n  ]\n\x7d"⟩
    ∧ executeTools (.ok (roundTripCode (.vNum 7))) [("id", identityTool)]
      = ⟨"7"⟩ := by
  have H1 := identity_round_trip
    (.vObj [("a", .vNum 1), ("b", .vArr [.vStr "x", .vNull])]) (by decide)
  have H2 := identity_round_trip (.vNum 7) (by decide)
  refine ⟨by decide, ?_, ?_⟩
  · rw [H1.2]
    decide
  · rw [H2.2]
    decide

set_option maxRecDepth 20000 in
theorem denylist_is_syntactic_witness :
    containsList (isIdentNamed "process") strLitProgram = false
    ∧ forbiddenIdentMsg "process" ∉ (validateCode (.ok strLitProgram)).errors
    ∧ (validateCode (.ok strLitProgram)).isValid = true
    ∧ executeTools (.ok strLitProgram) [] = ⟨"process"⟩ := by
  have H := denylist_is_syntactic strLitProgram "process" (by decide) (by decide)
  exact ⟨by decide, H.1, H.2.2.1, H.2.2.2⟩

def compile0 (q : String) : Except Unit (String → Bool) :=
  if q == "[" then .error () else .ok (fun s => s == "finds the weather")

def toJSON0 : Unit → Except Unit Value :=
  fun _ => .ok (.vObj [("type", .vStr "object")])

def catalog0 : List (String × DTool Unit) :=
  [("getWeather", ⟨some "finds the weather", ()⟩), ("greet", ⟨none, ()⟩)]

theorem discover_best_effort_witness :
    discoverToolsInMemory compile0 toJSON0 "w" catalog0
      = ⟨[⟨"getWeather", "finds the weather", .vObj [("type", .vStr "object")]⟩]⟩
    ∧ discoverToolsInMemory compile0 toJSON0 "[" catalog0 = ⟨[]⟩ := by
  have H := discover_best_effort compile0 toJSON0 "w" catalog0
  have H2 := discover_best_effort compile0 toJSON0 "[" catalog0
  constructor
  · have h := (H.2 (fun s => s == "finds the weather") rfl).2
      (fun _ => .vObj [("type", .vStr "object")]) (fun _ => rfl)
    rw [h]
    rfl
  · exact H2.1 () rfl
